import Mathlib

/-!
Shallow embedding of the git repository analyzer (`src/main.go`) and proofs
about its specified behaviour.

Modelling conventions:
* Timestamps and durations are integers counted in seconds (`Int`).
  `time.Now().AddDate(0, 0, -days)` is modelled as subtracting
  `days * 86400` seconds, and `int(time.Since(t).Hours() / 24)` — Go's
  float-to-int conversion truncates toward zero — as `Int.tdiv` of the
  difference in seconds by `86400`.
* Go strings are Lean `String`s; the byte-level operations of the `strings`
  and `path/filepath` packages are re-implemented below on `List Char`.
  Case folding (`(?i)`, `strings.ToLower`) is modelled with `Char.toLower`,
  which coincides with Go on ASCII input (the deny lists and markers are
  all ASCII).
* External collaborators (`git` subprocesses, the file system) are
  parameters: the branch-listing output arrives already split into records
  (a failed date parse is `none`), `git blame` is a function returning
  `Option Int`, and the file tree is an inductive `Entry` tree.
-/

namespace RepoAnalyze

/-- Case-sensitive test that `pat` occurs at the head of `s`
(the inner loop of `strings.Contains` / `strings.HasPrefix`). -/
def matchesHere : List Char → List Char → Bool
  | [], _ => true
  | _ :: _, [] => false
  | p :: ps, c :: cs => p == c && matchesHere ps cs

/-- Occurrence of `pat` anywhere in `s`; models `strings.Contains s pat`. -/
def listSub (pat : List Char) : List Char → Bool
  | [] => matchesHere pat []
  | c :: cs => matchesHere pat (c :: cs) || listSub pat cs

/-- Models `strings.Contains(s, sub)`. -/
def goContains (s sub : String) : Bool := listSub sub.data s.data

/-- Models `strings.HasPrefix(s, pat)`. -/
def goHasPre (s pat : String) : Bool := matchesHere pat.data s.data

/-- Models `strings.ToLower` (ASCII folding). -/
def goToLower (s : String) : String := ⟨s.data.map Char.toLower⟩

/-- Case-insensitive test that `pat` occurs at the head of `s`, as Go's
regexp `(?i)` flag folds both sides (ASCII folding). -/
def ciMatchesAt : List Char → List Char → Bool
  | [], _ => true
  | _ :: _, [] => false
  | p :: ps, c :: cs => p.toLower == c.toLower && ciMatchesAt ps cs

/-- The four marker alternatives of the regular expression
`(?i)(TODO|FIXME|XXX|HACK)\s*[:\-]?\s*(.*)` (line 362), in alternation
order. -/
def todoMarkers : List String := ["TODO", "FIXME", "XXX", "HACK"]

/-- First alternative (in alternation order) matching case-insensitively at
the head of `s`. RE2 alternation is leftmost-first; the four markers have
pairwise distinct initial letters, so at most one can match at a
position. -/
def markerAt (s : List Char) : Option String :=
  if ciMatchesAt "TODO".data s then some "TODO"
  else if ciMatchesAt "FIXME".data s then some "FIXME"
  else if ciMatchesAt "XXX".data s then some "XXX"
  else if ciMatchesAt "HACK".data s then some "HACK"
  else none

/-- Scan for the leftmost position where a marker matches; returns the
(canonically upper-case) marker together with the characters following the
matched text. Models `FindStringSubmatch` locating the leftmost match of
the pattern (the trailing `\s*[:\-]?\s*(.*)` always succeeds). -/
def findMarkerScan : List Char → Option (String × List Char)
  | [] => none
  | c :: cs =>
    match markerAt (c :: cs) with
    | some m => some (m, (c :: cs).drop m.data.length)
    | none => findMarkerScan cs

/-- Go regexp `\s` character class: `[\t\n\f\r ]`. -/
def goIsSpace (c : Char) : Bool :=
  c == ' ' || c == '\t' || c == '\n' || c == '\x0c' || c == '\r'

/-- The optional separator class `[:\-]?`: consume one `:` or `-` when
present. -/
def sepOpt : List Char → List Char
  | [] => []
  | c :: cs => if c == ':' || c == '-' then cs else c :: cs

/-- The text captured by group 2: after the marker the greedy
`\s*[:\-]?\s*` consumes maximal whitespace, at most one separator, maximal
whitespace again, and `(.*)` captures the remainder of the line. -/
def group2 (rest : List Char) : List Char :=
  ((rest.dropWhile goIsSpace) |> sepOpt).dropWhile goIsSpace

/-- The regex match on one line: marker kind (`matches[1]`, upper-cased —
the canonical marker spelling) and raw captured body (`matches[2]`), or
`none` when the pattern does not match the line. -/
def extractParts (line : String) : Option (String × String) :=
  (findMarkerScan line.data).map (fun p => (p.1, ⟨group2 p.2⟩))

/-- Lines 387–392: on a match, the record's type is the upper-cased marker
and its content is group 2, defaulted to the whole raw line when group 2 is
empty. -/
def extractLine (line : String) : Option (String × String) :=
  match extractParts line with
  | none => none
  | some (ty, content) => some (ty, if content = "" then line else content)

/-- Marker occurrence stated independently of the scanner: some marker
matches case-insensitively at some position of the line. -/
def containsMarker (line : String) : Bool :=
  todoMarkers.any (fun m =>
    (List.range (line.data.length + 1)).any (fun i => ciMatchesAt m.data (line.data.drop i)))

/-! ## Time arithmetic -/

/-- Models `int(d.Hours() / 24)` for a duration of `d` seconds: division by
`86400` truncated toward zero (Go's float-to-int conversion). -/
def goDays (d : Int) : Int := Int.tdiv d 86400

/-- Models `time.Now().AddDate(0, 0, -days)` (seconds granularity): the
cutoff instant `days` days before `now`. -/
def cutoffTime (now days : Int) : Int := now - days * 86400

/-! ## File tree walker (`filepath.Walk` + `shouldSkipFile`) -/

/-- A file tree: regular files and directories. `filepath.Walk` reads each
directory's entries in lexical name order; well-formedness below requires
the children lists to be strictly sorted by name, matching that. -/
inductive Entry where
  | file (name : String)
  | dir (name : String) (children : List Entry)
  deriving Repr

/-- Name of an entry. -/
def Entry.name : Entry → String
  | .file n => n
  | .dir n _ => n

/-- Models `filepath.Join(parent, name)` as used by the walk rooted at
`"."`: the root prefix is empty, so top-level entries appear under their
bare name. -/
def joinPath (pre name : String) : String :=
  if pre = "" then name else pre ++ "/" ++ name

/-- Directory-name deny list of `shouldSkipFile` (lines 424–427). -/
def skipPatterns : List String :=
  [".git/", "node_modules/", "vendor/", ".vscode/", ".idea/",
   "build/", "dist/", "target/", "bin/", "obj/"]

/-- Extension deny list of `shouldSkipFile` (lines 437–443). -/
def skipExtensions : List String :=
  [".exe", ".dll", ".so", ".dylib", ".a", ".lib",
   ".jpg", ".jpeg", ".png", ".gif", ".ico", ".svg",
   ".pdf", ".doc", ".docx", ".xls", ".xlsx",
   ".zip", ".tar", ".gz", ".7z", ".rar",
   ".mp3", ".mp4", ".avi", ".mov"]

/-- Scan of `filepath.Ext`, performed on the reversed character list: walk
from the end of the path, stop at a path separator, return from the last
`.` (inclusive) when one is found first. -/
def extRevScan : List Char → List Char → List Char
  | _, [] => []
  | acc, c :: rest =>
    if c = '/' then []
    else if c = '.' then c :: acc
    else extRevScan (c :: acc) rest

/-- Models `filepath.Ext(path)`. -/
def goExt (path : String) : String := ⟨extRevScan [] path.data.reverse⟩

/-- Models `shouldSkipFile` (lines 422–452): skip when the path contains a
denied directory fragment, or its lower-cased extension is denied. The two
early-returning loops are folded into `any`. -/
def shouldSkipFile (path : String) : Bool :=
  skipPatterns.any (fun p => goContains path p) ||
  skipExtensions.any (fun e => goToLower (goExt path) == e)

mutual

/-- All regular-file paths of an entry, in traversal order, with no
filtering: the universe the walk callback (lines 364–377) visits. -/
def allFiles (pre : String) : Entry → List String
  | .file n => [joinPath pre n]
  | .dir n cs => allFilesList (joinPath pre n) cs

/-- All regular-file paths of a sibling list. -/
def allFilesList (pre : String) : List Entry → List String
  | [] => []
  | e :: es => allFiles pre e ++ allFilesList pre es

end

mutual

/-- The paths the walk callback actually processes: directories are
descended into (never skipped as subtrees — the callback returns `nil` on
them), and a regular file is processed unless `shouldSkipFile` holds. -/
def walkFiles (pre : String) : Entry → List String
  | .file n => if shouldSkipFile (joinPath pre n) then [] else [joinPath pre n]
  | .dir n cs => walkFilesList (joinPath pre n) cs

/-- Walk of a sibling list. -/
def walkFilesList (pre : String) : List Entry → List String
  | [] => []
  | e :: es => walkFiles pre e ++ walkFilesList pre es

end

/-- Strict lexicographic order on character lists by code point (the order
of Go's byte-wise string comparison, which UTF-8 preserves). -/
def ltChars : List Char → List Char → Bool
  | [], [] => false
  | [], _ :: _ => true
  | _ :: _, [] => false
  | a :: as, b :: bs => a.toNat < b.toNat || (a == b && ltChars as bs)

/-- Name order used for directory listings. -/
def nameLt (a b : String) : Bool := ltChars a.data b.data

/-- A legal file-system name: nonempty and without a path separator. -/
def nameOk (n : String) : Bool := n != "" && !(n.data.contains '/')

mutual

/-- Well-formed entry: legal name, and for directories well-formed
children strictly sorted by name (distinct sibling names in lexical
order, as a real directory listing provides). -/
def wfEntry : Entry → Bool
  | .file n => nameOk n
  | .dir n cs => nameOk n && wfEntries cs

/-- Well-formed sibling list. -/
def wfEntries : List Entry → Bool
  | [] => true
  | e :: es => wfEntry e && es.all (fun x => nameLt e.name x.name) && wfEntries es

end

/-- A path remainder below a directory: empty, or starting at a path
separator. -/
def slashLed (r : List Char) : Prop := r = [] ∨ ∃ t, r = '/' :: t

/-! ## TODO pipeline (`findTodoComments`, lines 357–420) -/

/-- One extracted annotation record (`TodoItem`, lines 36–43). -/
structure TodoItem where
  file : String
  line : Nat
  content : String
  type : String
  age : Int
  daysOld : Int
  deriving Repr, DecidableEq

/-- Per-line body of the scan loop (lines 383–413): on a regex match,
resolve the age via `git blame` (`blame`, the result of `getLineAge`); on
blame failure assume the line is old — one day before the cutoff (line
398). Keep the record exactly when the age is strictly before the
cutoff. -/
def processLine (now todoDays : Int) (blame : Option Int) (path : String)
    (lineNum : Nat) (line : String) : Option TodoItem :=
  match extractLine line with
  | none => none
  | some (todoType, content) =>
    let age : Int :=
      match blame with
      | some t => t
      | none => cutoffTime now todoDays - 86400
    if age < cutoffTime now todoDays then
      some { file := path, line := lineNum, content := content, type := todoType,
             age := age, daysOld := goDays (now - age) }
    else none

/-- Scan of one file: lines are 1-indexed (`lineNum` starts at 0 and is
incremented before each line). -/
def processFile (now todoDays : Int) (blame : Nat → Option Int) (path : String)
    (lines : List String) : List TodoItem :=
  (lines.enumFrom 1).filterMap (fun p => processLine now todoDays (blame p.1) path p.1 p.2)

/-- Models `findTodoComments`: walk the tree from the root, scan every
non-skipped regular file. `contents` gives a file's lines, `blame` the
`git blame` timestamp per path and line (`none` = blame failed). -/
def findTodoComments (now todoDays : Int) (fsRoot : List Entry)
    (contents : String → List String) (blame : String → Nat → Option Int) : List TodoItem :=
  (walkFilesList "" fsRoot).flatMap
    (fun path => processFile now todoDays (blame path) path (contents path))

/-! ## Branch analyses -/

/-- Branch record (`BranchInfo`, lines 28–34). -/
structure BranchInfo where
  name : String
  lastCommit : Int
  author : String
  daysStale : Int
  isRemote : Bool
  deriving Repr, DecidableEq

/-- One record of the tab-separated `git branch --format` output, already
split into its three fields; a `none` date models an unparsable
`committerdate` (such lines are skipped, line 197–200). Blank lines and
lines with fewer than three fields are likewise absorbed into this
abstraction. -/
structure BranchEntry where
  name : String
  date : Option Int
  author : String
  deriving Repr, DecidableEq

/-- Models `getStaleBranches` (lines 165–217): skip HEAD refs and
unparsable dates; keep branches whose last commit is strictly before the
cutoff, with truncated day age and a remote flag from the `origin/`
name. -/
def getStaleBranches (now staleDays : Int) (entries : List BranchEntry) : List BranchInfo :=
  entries.filterMap (fun e =>
    if goContains e.name "HEAD" then none
    else
      match e.date with
      | none => none
      | some d =>
        if d < cutoffTime now staleDays then
          some { name := e.name, lastCommit := d, author := e.author,
                 daysStale := goDays (now - d), isRemote := goHasPre e.name "origin/" }
        else none)

/-- Candidate main-line branch names, in priority order (line 254). -/
def mainBranches : List String := ["main", "master", "develop"]

/-- The branch-selection loop (lines 257–263): first existing candidate
wins. -/
def pickMainBranch (refExists : String → Bool) : Option String :=
  mainBranches.find? refExists

/-- Models `getUnmergedBranches` (lines 250–315): fail when no main-line
candidate exists; otherwise list the not-merged remote branches (HEAD refs
and unparsable dates skipped, no age threshold, always remote). -/
def getUnmergedBranches (now : Int) (refExists : String → Bool)
    (notMerged : String → List BranchEntry) : Except String (List BranchInfo) :=
  match pickMainBranch refExists with
  | none => .error "no main branch found (main, master, or develop)"
  | some mb => .ok ((notMerged mb).filterMap (fun e =>
      if goContains e.name "HEAD" then none
      else
        match e.date with
        | none => none
        | some d =>
          some { name := e.name, lastCommit := d, author := e.author,
                 daysStale := goDays (now - d), isRemote := true }))

/-! ## Configuration and top-level flow -/

/-- Models `Config` (lines 18–26). -/
structure Config where
  repoPath : String
  staleDays : Int
  todoDays : Int
  showHelp : Bool
  checkBranches : Bool
  checkPRs : Bool
  checkTodos : Bool
  deriving Repr, DecidableEq

/-- The fallback of `parseFlags` (lines 98–103): if no check is enabled,
enable all three. -/
def normalizeChecks (c : Config) : Config :=
  if !c.checkBranches && !c.checkPRs && !c.checkTodos then
    { c with checkBranches := true, checkPRs := true, checkTodos := true }
  else c

/-- External inputs of one run. -/
structure AnalyzerEnv where
  branchList : List BranchEntry
  refExists : String → Bool
  notMerged : String → List BranchEntry
  fsRoot : List Entry
  contents : String → List String
  blame : String → Nat → Option Int

/-- Decidable equality for `Except`, needed to decide membership of
concrete analysis outcomes. -/
instance {ε α : Type} [DecidableEq ε] [DecidableEq α] : DecidableEq (Except ε α) := fun a b =>
  match a, b with
  | .error x, .error y =>
    if h : x = y then isTrue (congrArg Except.error h)
    else isFalse (fun he => h (by injection he))
  | .error _, .ok _ => isFalse (fun he => Except.noConfusion he)
  | .ok _, .error _ => isFalse (fun he => Except.noConfusion he)
  | .ok x, .ok y =>
    if h : x = y then isTrue (congrArg Except.ok h)
    else isFalse (fun he => h (by injection he))

/-- Outcome of one analysis. An analysis-level failure is carried in the
outcome (it is logged, line 228) and never aborts the run. Presentation
sorting and printing are omitted. -/
inductive AnalysisOutcome where
  | staleReport (branches : List BranchInfo)
  | unmergedReport (result : Except String (List BranchInfo))
  | todoReport (todos : List TodoItem)
  deriving Repr, DecidableEq

/-- Models the analysis sequence of `main` (lines 72–82): each enabled
analysis runs unconditionally of the others' results. -/
def runMain (now : Int) (cfg : Config) (env : AnalyzerEnv) : List AnalysisOutcome :=
  (if cfg.checkBranches then
    [AnalysisOutcome.staleReport (getStaleBranches now cfg.staleDays env.branchList)] else []) ++
  (if cfg.checkPRs then
    [AnalysisOutcome.unmergedReport (getUnmergedBranches now env.refExists env.notMerged)] else []) ++
  (if cfg.checkTodos then
    [AnalysisOutcome.todoReport
      (findTodoComments now cfg.todoDays env.fsRoot env.contents env.blame)] else [])

/-- Environment with no existing refs, no branches and no files, used to
instantiate universally quantified theorems. -/
def emptyEnv : AnalyzerEnv :=
  { branchList := [], refExists := fun _ => false, notMerged := fun _ => [],
    fsRoot := [], contents := fun _ => [], blame := fun _ _ => none }

/-- A configuration with all three analyses enabled. -/
def allOnConfig : Config :=
  { repoPath := ".", staleDays := 30, todoDays := 90, showHelp := false,
    checkBranches := true, checkPRs := true, checkTodos := true }

/-! ## Helper lemmas -/

/-- A timestamp strictly before the cutoff for a nonnegative day threshold
has a truncated day age of at least the threshold. -/
theorem le_goDays_of_lt_cutoff {now d T : Int} (hT : 0 ≤ T) (h : d < cutoffTime now T) :
    T ≤ goDays (now - d) := by
  have h86 : (0 : Int) < 86400 := by norm_num
  have h1 : T * 86400 < now - d := by unfold cutoffTime at h; omega
  have h0 : 0 ≤ now - d := le_trans (mul_nonneg hT h86.le) h1.le
  unfold goDays
  rw [Int.tdiv_eq_ediv h0 h86.le]
  exact (Int.le_ediv_iff_mul_le h86).mpr h1.le

/-! ## Claim theorems -/

/-- C1: when the git blame query fails, the Age Resolver assigns the
synthetic introduction timestamp one day before the cutoff
(`cutoffDate.AddDate(0, 0, -1)`, line 398) and the record is always
emitted, whatever `now` and the threshold are. -/
theorem blame_failure_fail_open (now d : Int) (path : String) (n : Nat)
    (line ty body : String) (h : extractLine line = some (ty, body)) :
    processLine now d none path n line =
      some { file := path, line := n, content := body, type := ty,
             age := cutoffTime now d - 86400,
             daysOld := goDays (now - (cutoffTime now d - 86400)) } := by
  have hlt : cutoffTime now d - 86400 < cutoffTime now d := by omega
  simp [processLine, h, hlt]

/-- Witness for C1 at a concrete line and clock. -/
theorem blame_failure_fail_open_witness :
    processLine 10000000 90 none "a.go" 3 "// TODO: x" =
      some { file := "a.go", line := 3, content := "x", type := "TODO",
             age := cutoffTime 10000000 90 - 86400,
             daysOld := goDays (10000000 - (cutoffTime 10000000 90 - 86400)) } :=
  blame_failure_fail_open 10000000 90 "a.go" 3 "// TODO: x" "TODO" "x" (by decide)

/-- C2 counterexample: on the line `// FIXME broken` the captured group 2
is the nonempty string `broken`, so the record's body is `broken`, not the
full raw line as the claim states. -/
theorem fixme_broken_body_not_raw_line :
    extractLine "// FIXME broken" = some ("FIXME", "broken") ∧
    ("broken" : String) ≠ "// FIXME broken" := by
  exact ⟨by decide, by decide⟩

/-- C2 amended: on `// FIXME broken` the body is the trailing text
`broken`; the full raw line becomes the body only when the trailing text
is empty, as on `// FIXME`. -/
theorem fixme_broken_body_is_trailing_text :
    extractLine "// FIXME broken" = some ("FIXME", "broken") ∧
    extractLine "// FIXME" = some ("FIXME", "// FIXME") := by
  exact ⟨by decide, by decide⟩

/-- C7: when blame succeeds with timestamp `t`, the candidate is emitted
iff `t` is strictly before the cutoff, and the emitted record carries
`introducedAt = t` and `ageInDays = floor((now - t) / 24h)` (truncation
and floor agree here because a retained record has `now - t > 0` for a
nonnegative threshold). -/
theorem blame_success_retention_iff (now d t : Int) (path : String) (n : Nat)
    (line ty body : String) (hd : 0 ≤ d) (h : extractLine line = some (ty, body)) :
    ((processLine now d (some t) path n line).isSome ↔ t < cutoffTime now d) ∧
    (∀ item, processLine now d (some t) path n line = some item →
      item.age = t ∧ item.daysOld = Int.fdiv (now - t) 86400) := by
  constructor
  · by_cases hlt : t < cutoffTime now d <;> simp [processLine, h, hlt]
  · intro item hitem
    by_cases hlt : t < cutoffTime now d
    · simp [processLine, h, hlt] at hitem
      have hnt : 0 ≤ now - t := by
        have : 0 ≤ d * 86400 := mul_nonneg hd (by norm_num)
        unfold cutoffTime at hlt
        omega
      rw [← hitem]
      refine ⟨rfl, ?_⟩
      unfold goDays
      exact (Int.fdiv_eq_tdiv hnt (by norm_num)).symm
    · simp [processLine, h, hlt] at hitem

/-- Witness for C7: a 100-day-old line against a 90-day threshold. -/
theorem blame_success_retention_iff_witness :
    ((processLine 10000000 90 (some 1000000) "a.go" 12
        "// TODO: fix this").isSome ↔ (1000000 : Int) < cutoffTime 10000000 90) ∧
    (∀ item, processLine 10000000 90 (some 1000000) "a.go" 12 "// TODO: fix this" = some item →
      item.age = 1000000 ∧ item.daysOld = Int.fdiv (10000000 - 1000000) 86400) := by
  exact blame_success_retention_iff 10000000 90 1000000 "a.go" 12 "// TODO: fix this"
    "TODO" "fix this" (by norm_num) (by decide)

/-- C9: if all three check toggles are false the configuration is rewritten
with all three enabled, and after normalization at least one check is
always enabled. -/
theorem no_checks_selected_enables_all :
    ∀ (rp : String) (sd td : Int) (sh : Bool) (c : Config),
      normalizeChecks
        { repoPath := rp, staleDays := sd, todoDays := td, showHelp := sh,
          checkBranches := false, checkPRs := false, checkTodos := false } =
        { repoPath := rp, staleDays := sd, todoDays := td, showHelp := sh,
          checkBranches := true, checkPRs := true, checkTodos := true } ∧
      ((normalizeChecks c).checkBranches || (normalizeChecks c).checkPRs ||
        (normalizeChecks c).checkTodos) = true := by
  intro rp sd td sh c
  constructor
  · rfl
  · obtain ⟨crp, csd, ctd, csh, cb, cp, ct⟩ := c
    cases cb <;> cases cp <;> cases ct <;> simp [normalizeChecks]

/-- C3: every record kept by the stale-branch analysis and every record
kept by the TODO analysis has a day age of at least its configured
threshold; nothing below threshold is retained. -/
theorem emitted_age_ge_threshold (now staleDays todoDays : Int)
    (entries : List BranchEntry) (fsRoot : List Entry)
    (contents : String → List String) (blame : String → Nat → Option Int)
    (hs : 0 ≤ staleDays) (ht : 0 ≤ todoDays) :
    (∀ b ∈ getStaleBranches now staleDays entries, staleDays ≤ b.daysStale) ∧
    (∀ item ∈ findTodoComments now todoDays fsRoot contents blame,
      todoDays ≤ item.daysOld) := by
  constructor
  · intro b hb
    rcases List.mem_filterMap.mp hb with ⟨e, _, hfe⟩
    by_cases hH : goContains e.name "HEAD" = true
    · simp [hH] at hfe
    · simp only [hH] at hfe
      cases hdate : e.date with
      | none => simp [hdate] at hfe
      | some d =>
        simp only [hdate] at hfe
        by_cases hlt : d < cutoffTime now staleDays
        · simp only [Bool.false_eq_true, if_false, hlt, if_true] at hfe
          cases hfe
          exact le_goDays_of_lt_cutoff hs hlt
        · simp [hH, hlt] at hfe
  · intro item hitem
    rcases List.mem_flatMap.mp hitem with ⟨path, _, hpf⟩
    rcases List.mem_filterMap.mp hpf with ⟨⟨i, l⟩, _, hpl⟩
    cases hel : extractLine l with
    | none => simp [processLine, hel] at hpl
    | some p =>
      obtain ⟨ty, body⟩ := p
      simp only [processLine, hel] at hpl
      by_cases hlt :
          (match blame path i with
            | some t => t
            | none => cutoffTime now todoDays - 86400) < cutoffTime now todoDays
      · simp only [hlt, if_true] at hpl
        cases hpl
        exact le_goDays_of_lt_cutoff ht hlt
      · simp [hlt] at hpl

/-- Witness for C3: one stale branch (commit at epoch second 0, clock at
10000000, threshold 30 days) and one old TODO line, both at least their
thresholds old. -/
theorem emitted_age_ge_threshold_witness :
    (30 : Int) ≤ ({ name := "origin/feature", lastCommit := 0, author := "alice",
                    daysStale := 115, isRemote := true } : BranchInfo).daysStale ∧
    (90 : Int) ≤ ({ file := "a.go", line := 1, content := "x", type := "TODO",
                    age := 0, daysOld := 115 } : TodoItem).daysOld := by
  refine ⟨?_, ?_⟩
  · exact (emitted_age_ge_threshold 10000000 30 90
      [{ name := "origin/feature", date := some 0, author := "alice" }]
      [Entry.file "a.go"] (fun _ => ["// TODO: x"]) (fun _ _ => some 0)
      (by norm_num) (by norm_num)).1 _ (by decide)
  · exact (emitted_age_ge_threshold 10000000 30 90
      [{ name := "origin/feature", date := some 0, author := "alice" }]
      [Entry.file "a.go"] (fun _ => ["// TODO: x"]) (fun _ _ => some 0)
      (by norm_num) (by norm_num)).2 _ (by decide)

/-- C6: the unmerged-branch analysis picks the first existing candidate
among `main`, `master`, `develop`; with none of them it fails with the
`no main branch found` message; and whatever the unmerged analysis does,
the stale-branch and TODO analyses still produce their reports in the
run. -/
theorem main_branch_priority_and_isolation (now : Int) (env : AnalyzerEnv) (cfg : Config) :
    (env.refExists "main" = true → pickMainBranch env.refExists = some "main") ∧
    (env.refExists "main" = false → env.refExists "master" = true →
      pickMainBranch env.refExists = some "master") ∧
    (env.refExists "main" = false → env.refExists "master" = false →
      env.refExists "develop" = true → pickMainBranch env.refExists = some "develop") ∧
    (env.refExists "main" = false → env.refExists "master" = false →
      env.refExists "develop" = false →
      getUnmergedBranches now env.refExists env.notMerged =
        .error "no main branch found (main, master, or develop)") ∧
    (cfg.checkBranches = true →
      AnalysisOutcome.staleReport (getStaleBranches now cfg.staleDays env.branchList)
        ∈ runMain now cfg env) ∧
    (cfg.checkTodos = true →
      AnalysisOutcome.todoReport
        (findTodoComments now cfg.todoDays env.fsRoot env.contents env.blame)
        ∈ runMain now cfg env) := by
  refine ⟨?_, ?_, ?_, ?_, ?_, ?_⟩
  · intro h1
    simp [pickMainBranch, mainBranches, List.find?, h1]
  · intro h1 h2
    simp [pickMainBranch, mainBranches, List.find?, h1, h2]
  · intro h1 h2 h3
    simp [pickMainBranch, mainBranches, List.find?, h1, h2, h3]
  · intro h1 h2 h3
    simp [getUnmergedBranches, pickMainBranch, mainBranches, List.find?, h1, h2, h3]
  · intro h
    simp [runMain, h, List.mem_append]
  · intro h
    simp [runMain, h, List.mem_append]

/-- Witness for C6: an environment with no refs at all fails with the
message, while the TODO report is still among the run's outcomes. -/
theorem main_branch_priority_and_isolation_witness :
    (getUnmergedBranches 0 emptyEnv.refExists emptyEnv.notMerged =
      .error "no main branch found (main, master, or develop)") ∧
    (AnalysisOutcome.todoReport
      (findTodoComments 0 allOnConfig.todoDays emptyEnv.fsRoot emptyEnv.contents emptyEnv.blame)
      ∈ runMain 0 allOnConfig emptyEnv) :=
  ⟨(main_branch_priority_and_isolation 0 emptyEnv allOnConfig).2.2.2.1 rfl rfl rfl,
   (main_branch_priority_and_isolation 0 emptyEnv allOnConfig).2.2.2.2.2 rfl⟩

/-- No marker alternative matches past the end of the line. -/
theorem markerAt_nil : markerAt [] = none := by decide

/-- Some marker alternative matches at the head of `s` iff `markerAt`
succeeds there. -/
theorem markerAt_isSome_iff {s : List Char} :
    (markerAt s).isSome = true ↔ ∃ m ∈ todoMarkers, ciMatchesAt m.data s = true := by
  unfold markerAt
  split_ifs with h1 h2 h3 h4 <;> simp_all [todoMarkers]

/-- A successful `markerAt` returns an alternative that matches at the
head of `s`. -/
theorem markerAt_eq_some {s : List Char} {m : String} (h : markerAt s = some m) :
    m ∈ todoMarkers ∧ ciMatchesAt m.data s = true := by
  unfold markerAt at h
  split_ifs at h with h1 h2 h3 h4 <;> cases h <;>
    exact ⟨by decide, by assumption⟩

/-- The scan succeeds iff a marker matches at some position. -/
theorem findMarkerScan_isSome_iff {s : List Char} :
    (findMarkerScan s).isSome = true ↔ ∃ i, (markerAt (s.drop i)).isSome = true := by
  induction s with
  | nil => simp [findMarkerScan, markerAt_nil]
  | cons c cs ih =>
    rw [findMarkerScan]
    cases hm : markerAt (c :: cs) with
    | some p =>
      simp only [Option.isSome_some, true_iff]
      exact ⟨0, by simp [hm]⟩
    | none =>
      simp only
      rw [ih]
      constructor
      · rintro ⟨i, hi⟩
        exact ⟨i + 1, by simpa using hi⟩
      · rintro ⟨i, hi⟩
        cases i with
        | zero => simp [hm] at hi
        | succ j => exact ⟨j, by simpa using hi⟩

/-- A successful scan returns the leftmost marker match: the alternative
found at position `i`, with no marker matching at any earlier position,
and the remaining characters following the matched text. -/
theorem findMarkerScan_first {s : List Char} {m : String} {rest : List Char}
    (h : findMarkerScan s = some (m, rest)) :
    ∃ i, markerAt (s.drop i) = some m ∧ rest = s.drop (i + m.data.length) ∧
      ∀ j, j < i → markerAt (s.drop j) = none := by
  induction s with
  | nil => simp [findMarkerScan] at h
  | cons c cs ih =>
    rw [findMarkerScan] at h
    cases hm : markerAt (c :: cs) with
    | some m' =>
      rw [hm] at h
      injection h with h
      injection h with hm' hrest
      subst hm'
      refine ⟨0, hm, ?_, fun j hj => absurd hj (Nat.not_lt_zero j)⟩
      simpa using hrest.symm
    | none =>
      rw [hm] at h
      obtain ⟨i, h1, h2, h3⟩ := ih h
      refine ⟨i + 1, by simpa using h1, ?_, ?_⟩
      · have : i + 1 + m.data.length = (i + m.data.length) + 1 := by omega
        rw [this]
        simpa using h2
      · intro j hj
        cases j with
        | zero => exact hm
        | succ k => simpa using h3 k (by omega)

/-- The independently stated substring test agrees with the scan. -/
theorem containsMarker_iff {line : String} :
    containsMarker line = true ↔ ∃ i, (markerAt (line.data.drop i)).isSome = true := by
  unfold containsMarker
  simp only [List.any_eq_true, List.mem_range]
  constructor
  · rintro ⟨m, hm, i, _, hci⟩
    exact ⟨i, markerAt_isSome_iff.mpr ⟨m, hm, hci⟩⟩
  · rintro ⟨i, hi⟩
    obtain ⟨m, hm, hci⟩ := markerAt_isSome_iff.mp hi
    by_cases hle : i ≤ line.data.length
    · exact ⟨m, hm, i, by omega, hci⟩
    · exfalso
      rw [List.drop_eq_nil_of_le (by omega)] at hci
      have hm4 : m = "TODO" ∨ m = "FIXME" ∨ m = "XXX" ∨ m = "HACK" := by
        simpa [todoMarkers] using hm
      rcases hm4 with rfl | rfl | rfl | rfl <;> exact absurd hci (by decide)

/-- The extractor emits iff the scan succeeds. -/
theorem extractLine_isSome_iff {line : String} :
    (extractLine line).isSome = true ↔ (findMarkerScan line.data).isSome = true := by
  unfold extractLine extractParts
  cases h : findMarkerScan line.data with
  | none => simp [h]
  | some p => simp [h]

/-- C8: per line the Extractor emits exactly one record when the pattern
matches and none otherwise (`containsMarker` is the match test stated
independently of the scanner); the emitted marker kind is the leftmost
match on the line; and an empty captured body falls back to the whole raw
line. -/
theorem extractor_exactly_one_per_line (line : String) :
    ((extractLine line).isSome = containsMarker line) ∧
    (∀ ty body, extractLine line = some (ty, body) →
      ∃ i, markerAt (line.data.drop i) = some ty ∧
        ∀ j, j < i → markerAt (line.data.drop j) = none) ∧
    (∀ ty, extractParts line = some (ty, "") → extractLine line = some (ty, line)) := by
  refine ⟨?_, ?_, ?_⟩
  · exact Bool.eq_iff_iff.mpr
      (extractLine_isSome_iff.trans (findMarkerScan_isSome_iff.trans containsMarker_iff.symm))
  · intro ty body h
    unfold extractLine at h
    cases hp : extractParts line with
    | none => rw [hp] at h; cases h
    | some p =>
      obtain ⟨ty', content⟩ := p
      rw [hp] at h
      injection h with h
      injection h with hty _
      unfold extractParts at hp
      cases hsc : findMarkerScan line.data with
      | none => rw [hsc] at hp; cases hp
      | some q =>
        obtain ⟨m, rest⟩ := q
        rw [hsc] at hp
        injection hp with hp
        injection hp with hm _
        obtain ⟨i, h1, _, h3⟩ := findMarkerScan_first hsc
        exact ⟨i, by rw [← hty, ← hm]; exact h1, h3⟩
  · intro ty h
    simp [extractLine, h]

/-- Witness for C8: a matched line agrees with the match test, and an
empty captured body yields the raw line. -/
theorem extractor_exactly_one_per_line_witness :
    ((extractLine "x TODO: y").isSome = containsMarker "x TODO: y") ∧
    extractLine "x TODO" = some ("TODO", "x TODO") :=
  ⟨(extractor_exactly_one_per_line "x TODO: y").1,
   (extractor_exactly_one_per_line "x TODO").2.2 "TODO" (by decide)⟩

/-- C10: marker matching needs no word boundary and no comment syntax: a
case-insensitive occurrence of an alternative anywhere in the line — also
inside a longer word or inside code — makes the Extractor emit a
record. -/
theorem marker_substring_matches_anywhere (line m : String) (i : Nat)
    (hm : m ∈ todoMarkers) (hci : ciMatchesAt m.data (line.data.drop i) = true) :
    (extractLine line).isSome = true :=
  extractLine_isSome_iff.mpr
    (findMarkerScan_isSome_iff.mpr ⟨i, markerAt_isSome_iff.mpr ⟨m, hm, hci⟩⟩)

/-- Witness for C10: the word `mastodon` contains `todo` and is reported
as a candidate. -/
theorem marker_substring_matches_anywhere_witness :
    (extractLine "mastodon").isSome = true :=
  marker_substring_matches_anywhere "mastodon" "TODO" 3 (by decide) (by decide)

/-! ## Walker lemmas -/

/-- Joining a nonempty parent path inserts one separator. -/
theorem joinPath_data_of_ne (q m : String) (hq : q ≠ "") :
    (joinPath q m).data = q.data ++ '/' :: m.data := by
  unfold joinPath
  rw [if_neg hq]
  simp [String.data_append]

/-- Joining a nonempty name never yields the empty path. -/
theorem joinPath_ne_empty (q m : String) (hm : m ≠ "") : joinPath q m ≠ "" := by
  unfold joinPath
  split
  · exact hm
  · intro h
    have := congrArg String.data h
    simp [String.data_append] at this

/-- The strict name order is irreflexive. -/
theorem ltChars_irrefl (l : List Char) : ltChars l l = false := by
  induction l with
  | nil => rfl
  | cons a as ih => simp [ltChars, ih]

/-- Strictly ordered names are distinct. -/
theorem nameLt_ne {a b : String} (h : nameLt a b = true) : a ≠ b := by
  intro he
  subst he
  rw [nameLt, ltChars_irrefl] at h
  cases h

/-- Unpacking a well-formed name. -/
theorem nameOk_spec {n : String} (h : nameOk n = true) :
    n ≠ "" ∧ '/' ∉ n.data := by
  have hh := h
  unfold nameOk at hh
  simp only [Bool.and_eq_true, bne_iff_ne, ne_eq, Bool.not_eq_true'] at hh
  refine ⟨hh.1, ?_⟩
  have hc := hh.2
  simp at hc
  exact hc

/-- Every entry of a well-formed sibling list is well-formed. -/
theorem wfEntries_mem {es : List Entry} {x : Entry} (h : wfEntries es = true)
    (hx : x ∈ es) : wfEntry x = true := by
  induction es with
  | nil => cases hx
  | cons e es ih =>
    rw [wfEntries] at h
    simp only [Bool.and_eq_true] at h
    rcases List.mem_cons.mp hx with rfl | hx'
    · exact h.1.1
    · exact ih h.2 hx'

/-- A well-formed entry has a legal name. -/
theorem wfEntry_nameOk {e : Entry} (h : wfEntry e = true) : nameOk e.name = true := by
  cases e with
  | file n => exact h
  | dir n cs =>
    rw [wfEntry] at h
    simp only [Bool.and_eq_true] at h
    exact h.1

/-- Later siblings of a well-formed list compare strictly above the
head. -/
theorem wfEntries_head_lt {e : Entry} {es : List Entry}
    (h : wfEntries (e :: es) = true) : ∀ x ∈ es, nameLt e.name x.name = true := by
  rw [wfEntries] at h
  simp only [Bool.and_eq_true, List.all_eq_true] at h
  exact h.1.2

/-- Splitting a well-formed sibling cons. -/
theorem wfEntries_cons {e : Entry} {es : List Entry}
    (h : wfEntries (e :: es) = true) : wfEntry e = true ∧ wfEntries es = true := by
  rw [wfEntries] at h
  simp only [Bool.and_eq_true] at h
  exact ⟨h.1.1, h.2⟩

mutual

/-- The walk emits exactly the non-denied regular files, in traversal
order. -/
theorem walkFiles_eq_filter (pre : String) (e : Entry) :
    walkFiles pre e = (allFiles pre e).filter (fun p => !shouldSkipFile p) := by
  cases e with
  | file n =>
    rw [walkFiles, allFiles]
    by_cases h : shouldSkipFile (joinPath pre n) = true <;> simp [h]
  | dir n cs =>
    rw [walkFiles, allFiles]
    exact walkFilesList_eq_filter (joinPath pre n) cs

/-- Sibling-list version of `walkFiles_eq_filter`. -/
theorem walkFilesList_eq_filter (pre : String) (es : List Entry) :
    walkFilesList pre es = (allFilesList pre es).filter (fun p => !shouldSkipFile p) := by
  cases es with
  | nil => rw [walkFilesList, allFilesList]; rfl
  | cons e es =>
    rw [walkFilesList, allFilesList, List.filter_append,
      walkFiles_eq_filter pre e, walkFilesList_eq_filter pre es]

end

/-- Taking up to the first separator of a slash-free block followed by a
slash-led remainder recovers the block. -/
theorem takeWhile_append_slashLed {a r : List Char} (ha : '/' ∉ a) (hr : slashLed r) :
    (a ++ r).takeWhile (fun c => c != '/') = a := by
  induction a with
  | nil =>
    rcases hr with rfl | ⟨t, rfl⟩
    · rfl
    · simp [List.takeWhile]
  | cons c a ih =>
    have hc : c ≠ '/' := fun h => ha (h ▸ List.mem_cons_self c a)
    have hcb : (c != '/') = true := by simpa using hc
    simp only [List.cons_append, List.takeWhile_cons, hcb, if_true]
    rw [ih (fun h => ha (List.mem_cons_of_mem c h))]

/-- Paths below two distinct legally named siblings never coincide. -/
theorem sibling_paths_disjoint {pre n1 n2 : String} (h1 : nameOk n1 = true)
    (h2 : nameOk n2 = true) (hne : n1 ≠ n2) {p : String} {r1 r2 : List Char}
    (hp1 : p.data = (joinPath pre n1).data ++ r1) (hled1 : slashLed r1)
    (hp2 : p.data = (joinPath pre n2).data ++ r2) (hled2 : slashLed r2) : False := by
  obtain ⟨-, hm1⟩ := nameOk_spec h1
  obtain ⟨-, hm2⟩ := nameOk_spec h2
  by_cases hq : pre = ""
  · subst hq
    rw [show joinPath "" n1 = n1 from rfl] at hp1
    rw [show joinPath "" n2 = n2 from rfl] at hp2
    have hcat : n1.data ++ r1 = n2.data ++ r2 := hp1.symm.trans hp2
    have : n1.data = n2.data := by
      rw [← takeWhile_append_slashLed hm1 hled1, ← takeWhile_append_slashLed hm2 hled2, hcat]
    exact hne (String.ext this)
  · rw [joinPath_data_of_ne _ _ hq] at hp1 hp2
    have hcat : pre.data ++ ('/' :: (n1.data ++ r1)) = pre.data ++ ('/' :: (n2.data ++ r2)) := by
      have h12 := hp1.symm.trans hp2
      simpa using h12
    have htail := List.append_cancel_left hcat
    injection htail with _ htail
    have : n1.data = n2.data := by
      rw [← takeWhile_append_slashLed hm1 hled1, ← takeWhile_append_slashLed hm2 hled2, htail]
    exact hne (String.ext this)

mutual

/-- Every file path below an entry extends the entry's own path by a
slash-led remainder. -/
theorem allFiles_extends (pre : String) (e : Entry) (hwf : wfEntry e = true) :
    ∀ p ∈ allFiles pre e,
      ∃ r, p.data = (joinPath pre e.name).data ++ r ∧ slashLed r := by
  cases e with
  | file n =>
    intro p hp
    rw [allFiles, List.mem_singleton] at hp
    subst hp
    exact ⟨[], by simp [Entry.name], Or.inl rfl⟩
  | dir n cs =>
    intro p hp
    rw [allFiles] at hp
    rw [wfEntry] at hwf
    simp only [Bool.and_eq_true] at hwf
    obtain ⟨x, -, r', hdec, -⟩ :=
      allFilesList_extends (joinPath pre n) cs hwf.2 p hp
    have hne := joinPath_ne_empty pre n (nameOk_spec hwf.1).1
    rw [joinPath_data_of_ne _ _ hne] at hdec
    refine ⟨'/' :: (x.name.data ++ r'), ?_, Or.inr ⟨_, rfl⟩⟩
    simpa [Entry.name] using hdec

/-- Sibling-list version of `allFiles_extends`: a path below the list
extends the path of one of its entries. -/
theorem allFilesList_extends (pre : String) (es : List Entry) (hwf : wfEntries es = true) :
    ∀ p ∈ allFilesList pre es,
      ∃ x ∈ es, ∃ r, p.data = (joinPath pre x.name).data ++ r ∧ slashLed r := by
  cases es with
  | nil => intro p hp; rw [allFilesList] at hp; cases hp
  | cons e es =>
    intro p hp
    rw [allFilesList] at hp
    obtain ⟨he, hes⟩ := wfEntries_cons hwf
    rcases List.mem_append.mp hp with hp1 | hp2
    · obtain ⟨r, hdec, hled⟩ := allFiles_extends pre e he p hp1
      exact ⟨e, List.mem_cons_self e es, r, hdec, hled⟩
    · obtain ⟨x, hx, r, hdec, hled⟩ := allFilesList_extends pre es hes p hp2
      exact ⟨x, List.mem_cons_of_mem e hx, r, hdec, hled⟩

end

mutual

/-- A well-formed entry contributes each regular file once. -/
theorem allFiles_nodup (pre : String) (e : Entry) (hwf : wfEntry e = true) :
    (allFiles pre e).Nodup := by
  cases e with
  | file n => rw [allFiles]; exact List.nodup_singleton _
  | dir n cs =>
    rw [allFiles]
    rw [wfEntry] at hwf
    simp only [Bool.and_eq_true] at hwf
    exact allFilesList_nodup (joinPath pre n) cs hwf.2

/-- A well-formed sibling list contributes each regular file once. -/
theorem allFilesList_nodup (pre : String) (es : List Entry) (hwf : wfEntries es = true) :
    (allFilesList pre es).Nodup := by
  cases es with
  | nil => rw [allFilesList]; exact List.nodup_nil
  | cons e es =>
    rw [allFilesList, List.nodup_append]
    obtain ⟨he, hes⟩ := wfEntries_cons hwf
    refine ⟨allFiles_nodup pre e he, allFilesList_nodup pre es hes, ?_⟩
    intro p hp hpes
    obtain ⟨r1, hdec1, hled1⟩ := allFiles_extends pre e he p hp
    obtain ⟨x, hx, r2, hdec2, hled2⟩ := allFilesList_extends pre es hes p hpes
    exact sibling_paths_disjoint (wfEntry_nameOk he)
      (wfEntry_nameOk (wfEntries_mem hes hx))
      (nameLt_ne (wfEntries_head_lt hwf x hx)) hdec1 hled1 hdec2 hled2

end

/-- C5: over any well-formed file tree the walk never emits a path that
contains a denied directory-name fragment or carries a denied (lower-cased)
extension, and every other regular file under the root is emitted exactly
once. -/
theorem walker_denies_and_yields_exactly_once (fsRoot : List Entry)
    (hwf : wfEntries fsRoot = true) :
    (∀ p ∈ walkFilesList "" fsRoot,
      (∀ pat ∈ skipPatterns, goContains p pat = false) ∧
      (∀ ext ∈ skipExtensions, goToLower (goExt p) ≠ ext)) ∧
    (∀ p ∈ allFilesList "" fsRoot, shouldSkipFile p = false →
      (walkFilesList "" fsRoot).count p = 1) := by
  constructor
  · intro p hp
    rw [walkFilesList_eq_filter] at hp
    have hns := List.of_mem_filter hp
    simp only [Bool.not_eq_true'] at hns
    unfold shouldSkipFile at hns
    simp only [Bool.or_eq_false_iff, List.any_eq_false] at hns
    refine ⟨fun pat hpat => Bool.eq_false_iff.mpr (hns.1 pat hpat), fun ext hext hEq => ?_⟩
    have := hns.2 ext hext
    simp [hEq] at this
  · intro p hp hns
    rw [walkFilesList_eq_filter]
    rw [List.count_filter (by simpa using hns)]
    exact List.count_eq_one_of_mem (allFilesList_nodup "" fsRoot hwf) hp

/-- Witness for C5 on a small tree: a kept source file avoids the deny
patterns and is yielded exactly once. -/
theorem walker_denies_and_yields_exactly_once_witness :
    goContains "src/a.go" ".git/" = false ∧
    (walkFilesList "" [Entry.dir ".git" [Entry.file "config"], Entry.file "README.md",
        Entry.dir "src" [Entry.file "a.go", Entry.file "b.png"]]).count "src/a.go" = 1 :=
  ⟨((walker_denies_and_yields_exactly_once
      [Entry.dir ".git" [Entry.file "config"], Entry.file "README.md",
        Entry.dir "src" [Entry.file "a.go", Entry.file "b.png"]] (by decide)).1
      "src/a.go" (by decide)).1 ".git/" (by decide),
   (walker_denies_and_yields_exactly_once
      [Entry.dir ".git" [Entry.file "config"], Entry.file "README.md",
        Entry.dir "src" [Entry.file "a.go", Entry.file "b.png"]] (by decide)).2
      "src/a.go" (by decide) (by decide)⟩

end RepoAnalyze
